import Mathlib

/-!
Shallow embedding of the lockin-pico firmware (src/lockin-pico.c) and proofs
about its specification claims.

Modelling conventions:
  - C `double` arithmetic is modelled exactly over ℚ.  All quantities that the
    claims depend on are exact in ℚ (the float rounding error of the source
    never crosses an integer boundary at the values involved, which the
    concrete evaluations below make explicit).
  - C unsigned/int arithmetic is modelled over ℕ/ℤ.  The 12-bit ADC samples and
    the iteration counts of the source keep every accumulator far below the
    uint32/int32 range, so no wrap-around is modelled.
  - The capture buffer is a `List ℕ` of its capacity-many sample slots; even
    indices hold reference-channel samples, odd indices input-channel samples.
-/

namespace LockinPico

/-- Compile-time constant, src line 12. -/
def CLOCK_FREQ_HZ : ℕ := 270000000

/-- Compile-time constant, src line 15. -/
def ADC_FREQ_DIVIDER : ℕ := 2

/-- Compile-time constant, src line 16: integer division of two int constants. -/
def ADC_FREQ_HZ : ℕ := CLOCK_FREQ_HZ / ADC_FREQ_DIVIDER

/-- Compile-time constant, src line 21. -/
def PWM_FREQ : ℕ := 500

/-- Compile-time constant, src line 22. -/
def DUTY_CYCLE_PERCENT : ℕ := 50

/-- Compile-time constant, src line 28. -/
def INPUT_SAMPLE_SIZE : ℕ := 4

/-- Bridge resistor constant, src line 30 (promoted to double where used). -/
def RI : ℚ := 9500

/-- Bridge resistor constant, src line 31 (promoted to double where used). -/
def RS : ℚ := 100000

/-- C conversion of a `double` to an unsigned integer: truncation toward zero.
Every value converted this way in the source is nonnegative, where truncation
toward zero coincides with the floor. -/
def cUint (q : ℚ) : ℕ := (⌊q⌋).toNat

/-- C division of two `int` values: truncation toward zero (src line 212
divides two ints before `round` is applied). -/
def cIntDiv (a b : ℤ) : ℤ := Int.tdiv a b

/-- src line 34: `((1000000 / PWM_FREQ) / (96.0 * 1000000 / ADC_FREQ_HZ)) + 1`
assigned to a `uint`.  `1000000 / PWM_FREQ` is int division; the rest is double
arithmetic; the final conversion to `uint` truncates. -/
def adc_capture_buffer_size : ℕ :=
  cUint (((1000000 / PWM_FREQ : ℕ) : ℚ) / (96 * 1000000 / (ADC_FREQ_HZ : ℚ)) + 1)

/-- src line 126: `floor(adc_capture_buffer_size / 2) * 2`.  The division is
unsigned integer division, so `floor` is the identity on its result. -/
def rounded_size (n : ℕ) : ℕ := n / 2 * 2

/-- Read of `adc_capture_buffer[i]`; out-of-range reads (which claim C10 shows
do not occur for the indices the code uses) default to 0. -/
def sampleAt (buf : List ℕ) (i : ℕ) : ℕ := buf.getD i 0

/-- The even (reference-channel) indices visited by the loops
`for (i = 0; i < rounded_size; i += 2)` of src lines 159 and 172. -/
def refIndices (n : ℕ) : List ℕ := (List.range (n / 2)).map (fun k => 2 * k)

/-- src lines 157-162: sum of the reference-channel samples. -/
def accumulator_reference (buf : List ℕ) : ℕ :=
  ((refIndices buf.length).map (fun i => sampleAt buf i)).sum

/-- src lines 158-162: sum of the input-channel samples. -/
def accumulator_input (buf : List ℕ) : ℕ :=
  ((refIndices buf.length).map (fun i => sampleAt buf (i + 1))).sum

/-- src line 163: `round(accumulator_reference / (rounded_size / 2))`.  Both
operands are unsigned integers, so the division truncates and the C `round`
call is the identity on the already-integral quotient (subject of claim C6). -/
def average_ref (buf : List ℕ) : ℕ :=
  accumulator_reference buf / (rounded_size buf.length / 2)

/-- src line 164: same truncating integer division for the input channel. -/
def average_input (buf : List ℕ) : ℕ :=
  accumulator_input buf / (rounded_size buf.length / 2)

/-- The value `previous_reference_value` holds when the loop of src lines
172-182 tests index `i`: the last reference sample `buf[rounded_size - 2]`
(src line 171) when `i = 0`, otherwise `buf[i - 2]`. -/
def previous_reference_value (buf : List ℕ) (i : ℕ) : ℕ :=
  if i = 0 then sampleAt buf (rounded_size buf.length - 2) else sampleAt buf (i - 2)

/-- The rising-crossing test of src line 178 at reference index `i`:
`previous_reference_value < average_ref && current_reference_value >= average_ref`. -/
def risingAt (buf : List ℕ) (i : ℕ) : Bool :=
  decide (previous_reference_value buf i < average_ref buf) &&
  decide (average_ref buf ≤ sampleAt buf i)

/-- src lines 166-188: the scan returns the first even index at which the
rising-crossing test holds; the `-1` (UINT_MAX) sentinel of src line 167 is
modelled as `none`. -/
def findZeroCrossing (buf : List ℕ) : Option ℕ :=
  (refIndices buf.length).find? (risingAt buf)

/-- C `fmod(x, m)` for the nonnegative operands of src line 196: the remainder
of `x` modulo `m`, lying in `[0, m)` for `m > 0`. -/
def qfmod (x m : ℚ) : ℚ := x - m * (⌊x / m⌋ : ℚ)

/-- src line 129: `96.0 * 1000000 / ADC_FREQ_HZ` in double arithmetic. -/
def sampling_frequency_us : ℚ := 96 * 1000000 / (ADC_FREQ_HZ : ℚ)

/-- src line 130: `1000000 / (INPUT_SAMPLE_SIZE * PWM_FREQ)` is int division
(exact here: 1000000 / 2000 = 500) assigned to a double. -/
def input_sample_interval_us : ℚ := ((1000000 / (INPUT_SAMPLE_SIZE * PWM_FREQ) : ℕ) : ℚ)

/-- src line 131. -/
def sample_index_spacing : ℚ := input_sample_interval_us / sampling_frequency_us

/-- src line 193: `(uint) sample % 2 != 0 ? sample : (sample + 1)` assigned to
a `uint`.  If the truncation of `sample` is odd it is used directly, otherwise
the truncation of `sample + 1` is used. -/
def nearest_odd_sample (q : ℚ) : ℕ :=
  if cUint q % 2 ≠ 0 then cUint q else cUint (q + 1)

/-- The value of the double variable `sample` of src lines 191-196 before the
`j`-th pass of the demodulation loop: it starts at the phase origin and each
pass advances it by `sample_index_spacing` modulo `rounded_size`. -/
def walkPos (m spacing start : ℚ) : ℕ → ℚ
  | 0 => start
  | j + 1 => qfmod (walkPos m spacing start j + spacing) m

/-- One iteration of the averaging loop of src lines 153-206 acting on the
four running accumulators `input_samples[0..3]`: when the zero-crossing scan
fails the `continue` of src line 187 leaves the accumulators untouched;
otherwise src lines 191-197 add `buf[nearest_odd_sample] - average_input` at
each of the four walk positions, starting from `zero_index + 1`. -/
def accumStep (buf : List ℕ) (acc : Fin 4 → ℤ) : Fin 4 → ℤ :=
  match findZeroCrossing buf with
  | none => acc
  | some z => fun j =>
      acc j +
        ((sampleAt buf (nearest_odd_sample
            (walkPos ((rounded_size buf.length : ℕ) : ℚ) sample_index_spacing
              ((z + 1 : ℕ) : ℚ) j.val)) : ℤ) -
          (average_input buf : ℤ))

/-- The whole averaging loop of src lines 153-206, one `List ℕ` per captured
buffer (acquisition). -/
def accumulation_loop (bufs : List (List ℕ)) (acc : Fin 4 → ℤ) : Fin 4 → ℤ :=
  bufs.foldl (fun a b => accumStep b a) acc

/-- src lines 211-213: `round(input_samples[i] / input_iterations)`.  Both
operands are ints, so the division truncates toward zero and the C `round`
call is the identity on the already-integral quotient (subject of claim C5). -/
def finalize (acc : Fin 4 → ℤ) (input_iterations : ℤ) : Fin 4 → ℤ :=
  fun j => cIntDiv (acc j) input_iterations

/-- Buffer indices read by the pairwise averaging loop of src lines 159-162:
`buf[i]` and `buf[i + 1]` for each even `i < rounded_size`. -/
def averagingReads (n : ℕ) : List ℕ := (refIndices n).flatMap (fun i => [i, i + 1])

/-- Buffer indices read by the zero-crossing scan of src lines 171-182: the
initial read of `buf[rounded_size - 2]` and then `buf[i]` for each even
`i < rounded_size`. -/
def scanReads (n : ℕ) : List ℕ := (rounded_size n - 2) :: refIndices n

/-- Buffer indices read by the demodulation loop of src lines 191-197 (empty
when the zero-crossing scan failed and the iteration was skipped). -/
def demodReads (buf : List ℕ) : List ℕ :=
  match findZeroCrossing buf with
  | none => []
  | some z =>
      (List.range INPUT_SAMPLE_SIZE).map (fun j =>
        nearest_odd_sample (walkPos ((rounded_size buf.length : ℕ) : ℚ)
          sample_index_spacing ((z + 1 : ℕ) : ℚ) j))

/-- All capture-buffer indices read by one iteration of get_input_samples. -/
def bufferReads (buf : List ℕ) : List ℕ :=
  averagingReads buf.length ++ scanReads buf.length ++ demodReads buf

/-- Error kind named by the spec for signal-generator configuration (§4.1,
§7); the source defines no such value, which claim C9 is about. -/
inductive ConfigError where
  | wrap_unrepresentable
  | divider_zero
deriving DecidableEq

/-- The hardware-facing values init_pwm computes (src lines 39-63) together
with the enable flag of src line 62. -/
structure PwmConfig where
  clock_divider : ℚ
  counter_wrap : ℕ
  level : ℕ
  enabled : Bool
deriving DecidableEq

/-- src line 49: `ceil(CLOCK_FREQ_HZ / (2048 * PWM_FREQ)) / 16`.  The inner
division is int division, so `ceil` is the identity on its result; the outer
division is double arithmetic. -/
def computed_divider (pwm_freq : ℕ) : ℚ :=
  ((CLOCK_FREQ_HZ / (2048 * pwm_freq) : ℕ) : ℚ) / 16

/-- src lines 53-54: `(CLOCK_FREQ_HZ / clock_divider) / PWM_FREQ - 1` in
double arithmetic, before the `uint16_t` conversion. -/
def computed_wrap (pwm_freq : ℕ) : ℚ :=
  (CLOCK_FREQ_HZ : ℚ) / computed_divider pwm_freq / (pwm_freq : ℚ) - 1

/-- src line 54: the `uint16_t` conversion of the computed wrap value.  The C
conversion is defined only when the value lies in `[0, 2^16)`; `cUint` models
that in-range case (claim C9 uses only the divider and the absence of an
error return, not this value). -/
def counter_wrap_u16 (pwm_freq : ℕ) : ℕ := cUint (computed_wrap pwm_freq)

/-- src line 58: `counter_wrap / (100 / DUTY_CYCLE_PERCENT)`, integer
division of the uint16 wrap by the int constant 2. -/
def computed_level (pwm_freq : ℕ) : ℕ :=
  counter_wrap_u16 pwm_freq / (100 / DUTY_CYCLE_PERCENT)

/-- src lines 39-63: init_pwm is a void function with no validation and no
error path; it unconditionally computes the divider, wrap and level and
enables the PWM.  The `Except` result type is the spec's contract shape; the
source only ever produces the `ok` case. -/
def init_pwm (pwm_freq : ℕ) : Except ConfigError PwmConfig :=
  Except.ok
    { clock_divider := computed_divider pwm_freq
      counter_wrap := counter_wrap_u16 pwm_freq
      level := computed_level pwm_freq
      enabled := true }

/-- Whether an init_pwm result is a success. -/
def pwmOk (r : Except ConfigError PwmConfig) : Bool :=
  match r with
  | Except.ok _ => true
  | Except.error _ => false

/-- The value init_adc returns (src lines 65-105), as a function of whether
`calloc` returned a non-null buffer (src lines 96-101).  On allocation
failure the function returns `false`; on success control reaches the closing
brace of the non-void function without any return statement, so no defined
value is returned (C undefined behavior), modelled as `none`. -/
def init_adc (alloc_succeeds : Bool) : Option Bool :=
  if alloc_succeeds then none else some false

/-- src lines 255-256: `bool success = init_adc(); if (!success) return 1;`,
as a function of the bool value main obtained: exit code `some 1` aborts
startup, `none` proceeds. -/
def main_startup_exit (success : Bool) : Option ℕ :=
  if success then none else some 1

/-- Complex numbers as the source's `double complex`, modelled exactly. -/
structure CComplex where
  re : ℚ
  im : ℚ
deriving DecidableEq

/-- Complex addition. -/
def CComplex.add (z w : CComplex) : CComplex := ⟨z.re + w.re, z.im + w.im⟩

/-- Complex subtraction. -/
def CComplex.sub (z w : CComplex) : CComplex := ⟨z.re - w.re, z.im - w.im⟩

/-- Complex multiplication. -/
def CComplex.mul (z w : CComplex) : CComplex :=
  ⟨z.re * w.re - z.im * w.im, z.re * w.im + z.im * w.re⟩

/-- Complex division, by the usual real-pair formula. -/
def CComplex.div (z w : CComplex) : CComplex :=
  ⟨(z.re * w.re + z.im * w.im) / (w.re * w.re + w.im * w.im),
   (z.im * w.re - z.re * w.im) / (w.re * w.re + w.im * w.im)⟩

/-- Embedding of a real scalar, as C promotes a double to double complex. -/
def CComplex.ofRat (a : ℚ) : CComplex := ⟨a, 0⟩

/-- src lines 228-233: `quadrature = samples[0] - samples[2]`,
`inphase = samples[1] - samples[3]`, returning `inphase + quadrature * I`. -/
def get_voltage (samples : Fin 4 → ℤ) : CComplex :=
  ⟨((samples 1 - samples 3 : ℤ) : ℚ), ((samples 0 - samples 2 : ℤ) : ℚ)⟩

/-- src lines 235-243: `(RI * RS * (dut_voltage - dut_short_voltage)) /
(RI + RS * (dut_open_voltage - dut_voltage))` with
`dut_short_voltage = 0 + 0i`. -/
def calculate_result (open_circuit_samples dut_samples : Fin 4 → ℤ) : CComplex :=
  CComplex.div
    (CComplex.mul (CComplex.ofRat (RI * RS))
      (CComplex.sub (get_voltage dut_samples) (CComplex.ofRat 0)))
    (CComplex.add (CComplex.ofRat RI)
      (CComplex.mul (CComplex.ofRat RS)
        (CComplex.sub (get_voltage open_circuit_samples) (get_voltage dut_samples))))

/-- Stated from the spec's words (§4.5): `derive_voltage([4]int) ->
ComplexVoltage` with `inphase = s[1] - s[3]`, `quadrature = s[0] - s[2]`,
inphase the real part.  Written independently of the source for the
refinement comparison of claim C7. -/
def derive_voltage_spec (s : Fin 4 → ℤ) : CComplex :=
  ⟨((s 1 - s 3 : ℤ) : ℚ), ((s 0 - s 2 : ℤ) : ℚ)⟩

/-- Stated from the spec's words (§4.6): `Z = R_internal * R_bridge *
(V_dut - V_short) / (R_internal + R_bridge * (V_open - V_dut))` with
`V_short` the zero complex value.  Written independently of the source for
the refinement comparison of claim C7. -/
def estimate_spec (v_open v_dut : CComplex) (r_internal r_bridge : ℚ) : CComplex :=
  CComplex.div
    (CComplex.mul (CComplex.ofRat (r_internal * r_bridge))
      (CComplex.sub v_dut (CComplex.ofRat 0)))
    (CComplex.add (CComplex.ofRat r_internal)
      (CComplex.mul (CComplex.ofRat r_bridge) (CComplex.sub v_open v_dut)))

/-! ## Helper lemmas -/

theorem rounded_size_le (n : ℕ) : rounded_size n ≤ n := by
  unfold rounded_size
  omega

theorem rounded_size_even (n : ℕ) : rounded_size n % 2 = 0 := by
  unfold rounded_size
  omega

theorem mem_refIndices {n i : ℕ} : i ∈ refIndices n ↔ i % 2 = 0 ∧ i < rounded_size n := by
  simp only [refIndices, rounded_size, List.mem_map, List.mem_range]
  constructor
  · rintro ⟨k, hk, rfl⟩
    omega
  · rintro ⟨h2, hlt⟩
    exact ⟨i / 2, by omega, by omega⟩

theorem refIndices_pairwise (n : ℕ) : (refIndices n).Pairwise (· < ·) := by
  unfold refIndices
  rw [List.pairwise_map]
  exact (List.pairwise_lt_range _).imp (by omega)

theorem find?_first_of_pairwise {p : ℕ → Bool} {l : List ℕ} (hl : l.Pairwise (· < ·))
    {a : ℕ} :
    l.find? p = some a ↔ a ∈ l ∧ p a = true ∧ ∀ b ∈ l, b < a → p b = false := by
  induction l with
  | nil => simp
  | cons x xs ih =>
    rcases List.pairwise_cons.mp hl with ⟨hx, hxs⟩
    by_cases hpx : p x = true
    · rw [List.find?_cons_of_pos _ hpx]
      constructor
      · intro h
        injection h with h
        subst h
        refine ⟨List.mem_cons_self x xs, hpx, ?_⟩
        intro b hb hba
        rcases List.mem_cons.mp hb with rfl | hbxs
        · omega
        · exact absurd hba (by have := hx b hbxs; omega)
      · rintro ⟨ha, _, hmin⟩
        rcases List.mem_cons.mp ha with rfl | haxs
        · rfl
        · have hxa : x < a := hx a haxs
          have hfalse := hmin x (List.mem_cons_self x xs) hxa
          rw [hpx] at hfalse
          cases hfalse
    · have hpx' : p x = false := by
        cases h : p x
        · rfl
        · exact absurd h hpx
      rw [List.find?_cons_of_neg _ (by simp [hpx']), ih hxs]
      constructor
      · rintro ⟨ha, hpa, hmin⟩
        refine ⟨List.mem_cons_of_mem x ha, hpa, ?_⟩
        intro b hb hba
        rcases List.mem_cons.mp hb with rfl | hbxs
        · exact hpx'
        · exact hmin b hbxs hba
      · rintro ⟨ha, hpa, hmin⟩
        rcases List.mem_cons.mp ha with rfl | haxs
        · rw [hpa] at hpx'
          cases hpx'
        · exact ⟨haxs, hpa, fun b hb hba => hmin b (List.mem_cons_of_mem x hb) hba⟩

theorem qfmod_nonneg (x m : ℚ) (hm : 0 < m) : 0 ≤ qfmod x m := by
  have h : (⌊x / m⌋ : ℚ) ≤ x / m := Int.floor_le (x / m)
  have h2 : m * (⌊x / m⌋ : ℚ) ≤ m * (x / m) := mul_le_mul_of_nonneg_left h (le_of_lt hm)
  have h3 : m * (x / m) = x := by
    field_simp
  unfold qfmod
  linarith

theorem qfmod_lt (x m : ℚ) (hm : 0 < m) : qfmod x m < m := by
  have h : x / m < (⌊x / m⌋ : ℚ) + 1 := Int.lt_floor_add_one (x / m)
  have h2 : x < ((⌊x / m⌋ : ℚ) + 1) * m := (div_lt_iff₀ hm).mp h
  unfold qfmod
  nlinarith

theorem cUint_natCast (k : ℕ) : cUint (k : ℚ) = k := by
  simp [cUint, Int.floor_natCast]

theorem cUint_lt {q : ℚ} {n : ℕ} (h0 : 0 ≤ q) (h : q < (n : ℚ)) : cUint q < n := by
  have h1 : ⌊q⌋ < (n : ℤ) := by
    rw [Int.floor_lt]
    exact_mod_cast h
  have h2 : 0 ≤ ⌊q⌋ := Int.floor_nonneg.mpr h0
  unfold cUint
  omega

theorem cUint_add_one {q : ℚ} (h0 : 0 ≤ q) : cUint (q + 1) = cUint q + 1 := by
  have h1 : ⌊q + 1⌋ = ⌊q⌋ + 1 := by
    exact_mod_cast Int.floor_add_int q 1
  have h2 : 0 ≤ ⌊q⌋ := Int.floor_nonneg.mpr h0
  unfold cUint
  omega

theorem nearest_odd_sample_odd_lt {q : ℚ} {n : ℕ} (h0 : 0 ≤ q) (hq : q < (n : ℚ))
    (hn : n % 2 = 0) :
    nearest_odd_sample q % 2 = 1 ∧ nearest_odd_sample q < n := by
  have hk : cUint q < n := cUint_lt h0 hq
  unfold nearest_odd_sample
  by_cases hodd : cUint q % 2 ≠ 0
  · rw [if_pos hodd]
    omega
  · rw [if_neg hodd, cUint_add_one h0]
    push_neg at hodd
    omega

theorem walkPos_bounds (spacing : ℚ) {m start : ℚ} (hm : 0 < m) (h0 : 0 ≤ start)
    (h1 : start < m) :
    ∀ j, 0 ≤ walkPos m spacing start j ∧ walkPos m spacing start j < m := by
  intro j
  induction j with
  | zero => exact ⟨h0, h1⟩
  | succ k _ => exact ⟨qfmod_nonneg _ _ hm, qfmod_lt _ _ hm⟩

theorem findZeroCrossing_mem {buf : List ℕ} {z : ℕ} (h : findZeroCrossing buf = some z) :
    z % 2 = 0 ∧ z < rounded_size buf.length := by
  have hmem : z ∈ refIndices buf.length := by
    apply List.mem_of_find?_eq_some
    simpa [findZeroCrossing] using h
  exact mem_refIndices.mp hmem

/-! ## Claim theorems -/

/-- Claim C1: for every captured buffer, the zero-crossing search returns
`some i` exactly when `i` is the first even (reference) index, in buffer
order, at which the previous reference sample (the last reference sample of
the buffer when `i = 0`) is strictly below the computed reference mean while
the sample at `i` is at or above it; and the resulting phase origin used by
the demodulator is the input-channel slot `i + 1` immediately after that
reference sample — the demodulator's first accumulated read is
`buf[i + 1]`. -/
theorem find_zero_crossing_first_rising (buf : List ℕ) (i : ℕ) (acc : Fin 4 → ℤ) :
    (findZeroCrossing buf = some i ↔
      i % 2 = 0 ∧ i < rounded_size buf.length ∧ risingAt buf i = true ∧
        ∀ j, j % 2 = 0 → j < i → risingAt buf j = false) ∧
    (findZeroCrossing buf = some i →
      (i + 1) % 2 = 1 ∧
      accumStep buf acc 0 =
        acc 0 + ((sampleAt buf (i + 1) : ℤ) - (average_input buf : ℤ))) := by
  constructor
  · rw [findZeroCrossing, find?_first_of_pairwise (refIndices_pairwise _)]
    constructor
    · rintro ⟨hmem, hp, hmin⟩
      rcases mem_refIndices.mp hmem with ⟨h2, hlt⟩
      refine ⟨h2, hlt, hp, fun j hj2 hji => ?_⟩
      exact hmin j (mem_refIndices.mpr ⟨hj2, by omega⟩) hji
    · rintro ⟨h2, hlt, hp, hmin⟩
      exact ⟨mem_refIndices.mpr ⟨h2, hlt⟩, hp,
        fun b hb hbi => hmin b (mem_refIndices.mp hb).1 hbi⟩
  · intro h
    rcases findZeroCrossing_mem h with ⟨h2, _⟩
    refine ⟨by omega, ?_⟩
    have hstart : nearest_odd_sample ((i + 1 : ℕ) : ℚ) = i + 1 := by
      unfold nearest_odd_sample
      rw [cUint_natCast, if_pos (by omega)]
    unfold accumStep
    rw [h]
    show acc 0 + _ = _
    rw [show walkPos ((rounded_size buf.length : ℕ) : ℚ) sample_index_spacing
        ((i + 1 : ℕ) : ℚ) (0 : Fin 4).val = ((i + 1 : ℕ) : ℚ) from rfl, hstart]

/-- Claim C1 witness: on the buffer `[5, 0, 0, 0]` the crossing is found at
reference index 0 and the first demodulator read is the input slot 1. -/
theorem find_zero_crossing_first_rising_witness :
    (0 + 1) % 2 = 1 ∧
    accumStep [5, 0, 0, 0] (fun _ => 0) 0 =
      (fun _ : Fin 4 => (0 : ℤ)) 0 +
        ((sampleAt [5, 0, 0, 0] (0 + 1) : ℤ) - (average_input [5, 0, 0, 0] : ℤ)) :=
  (find_zero_crossing_first_rising [5, 0, 0, 0] 0 (fun _ => 0)).2 (by decide)

/-- Claim C2: for every even buffer length and every phase origin in
`[0, length)`, each of the four positions visited by the demodulator's
modular phase-walk (with the program's sample spacing) resolves to an odd
(input-channel) index below the buffer length, so a reference-channel slot is
never accumulated as an input sample. -/
theorem phase_walk_hits_input_slots (n origin : ℕ) (hn2 : n % 2 = 0) (hn0 : 0 < n)
    (ho : origin < n) :
    ∀ j < 4,
      nearest_odd_sample (walkPos (n : ℚ) sample_index_spacing (origin : ℚ) j) % 2 = 1 ∧
      nearest_odd_sample (walkPos (n : ℚ) sample_index_spacing (origin : ℚ) j) < n := by
  intro j _
  have hm : (0 : ℚ) < (n : ℚ) := by exact_mod_cast hn0
  have h0 : (0 : ℚ) ≤ (origin : ℚ) := by positivity
  have h1 : (origin : ℚ) < (n : ℚ) := by exact_mod_cast ho
  have hb := walkPos_bounds sample_index_spacing hm h0 h1 j
  exact nearest_odd_sample_odd_lt hb.1 hb.2 hn2

/-- Claim C2 witness: buffer length 4, phase origin 0 (a reference slot), walk
step 1: the resolved index is odd and in range. -/
theorem phase_walk_hits_input_slots_witness :
    nearest_odd_sample (walkPos ((4 : ℕ) : ℚ) sample_index_spacing ((0 : ℕ) : ℚ) 1) % 2 = 1 ∧
    nearest_odd_sample (walkPos ((4 : ℕ) : ℚ) sample_index_spacing ((0 : ℕ) : ℚ) 1) < 4 :=
  phase_walk_hits_input_slots 4 0 (by decide) (by decide) (by decide) 1 (by decide)

/-- Claim C3 counterexample: the capture-buffer capacity computed at src line
34 from PWM_FREQ = 500 Hz and ADC_FREQ_HZ = 135 MHz is 2813, which is odd —
the claimed even-capacity invariant fails on the allocated capacity. -/
theorem capture_buffer_size_odd :
    adc_capture_buffer_size = 2813 ∧ adc_capture_buffer_size % 2 = 1 := by
  have h : adc_capture_buffer_size = 2813 := by
    norm_num [adc_capture_buffer_size, cUint, PWM_FREQ, ADC_FREQ_HZ, CLOCK_FREQ_HZ,
      ADC_FREQ_DIVIDER]
    decide
  exact ⟨h, by rw [h]⟩

/-- Claim C3 amended: the capacity constant derived from PWM_FREQ = 500 Hz and
ADC_FREQ_HZ = 135 MHz is 2813, an odd number; it covers at least one full
excitation period (2813 sample intervals span at least 1000000/500 = 2000 us);
evenness holds not of the capacity but of the rounded size
`floor(capacity / 2) * 2` that get_input_samples consumes. -/
theorem capture_buffer_size_amended :
    adc_capture_buffer_size % 2 = 1 ∧
    ((1000000 / PWM_FREQ : ℕ) : ℚ) ≤ (adc_capture_buffer_size : ℚ) * sampling_frequency_us ∧
    rounded_size adc_capture_buffer_size % 2 = 0 := by
  have h : adc_capture_buffer_size = 2813 := by
    norm_num [adc_capture_buffer_size, cUint, PWM_FREQ, ADC_FREQ_HZ, CLOCK_FREQ_HZ,
      ADC_FREQ_DIVIDER]
    decide
  have hs : sampling_frequency_us = 32 / 45 := by
    norm_num [sampling_frequency_us, ADC_FREQ_HZ, CLOCK_FREQ_HZ, ADC_FREQ_DIVIDER]
  refine ⟨by rw [h], ?_, rounded_size_even _⟩
  rw [h, hs]
  norm_num [PWM_FREQ]

/-- Claim C4: when an acquisition's reference samples contain no rising
crossing of their mean, that acquisition contributes nothing to the four
running accumulators — they hold exactly the same values after the skipped
iteration as before it — and the loop proceeds to the next iteration rather
than aborting. -/
theorem no_zero_crossing_skips_acquisition (buf : List ℕ) (acc : Fin 4 → ℤ)
    (rest : List (List ℕ)) (h : findZeroCrossing buf = none) :
    accumStep buf acc = acc ∧
    accumulation_loop (buf :: rest) acc = accumulation_loop rest acc := by
  have hstep : accumStep buf acc = acc := by
    unfold accumStep
    rw [h]
  exact ⟨hstep, by simp only [accumulation_loop, List.foldl_cons, hstep]⟩

/-- Claim C4 witness: the constant buffer `[5, 5, 5, 5]` has no rising
crossing (its reference samples never go strictly below their mean), and the
accumulators pass through the iteration unchanged. -/
theorem no_zero_crossing_skips_acquisition_witness :
    accumStep [5, 5, 5, 5] (fun _ => 0) = (fun _ => 0) ∧
    accumulation_loop [[5, 5, 5, 5]] (fun _ => 0) = accumulation_loop [] (fun _ => 0) :=
  no_zero_crossing_skips_acquisition [5, 5, 5, 5] (fun _ => 0) [] (by decide)

/-- Claim C5 (code bug exhibit): the finalization step divides the
accumulated sum by the iteration count with C int division, which truncates
toward zero — `round` at src line 212 is applied to an already-truncated
integer quotient.  At accumulated sum -5 and iteration count 3 the code
yields -1, while rounding -5/3 to the nearest integer yields -2. -/
theorem finalize_truncates_toward_zero :
    finalize (fun j => if j = 0 then -5 else 0) 3 0 = -1 ∧ round ((-5 : ℚ) / 3) = -2 := by
  constructor
  · decide
  · norm_num [round_eq]

/-- Claim C6 (code bug exhibit): the reference level is computed by
truncating unsigned integer division — `round` at src line 163 is applied to
an already-truncated integer quotient.  On the buffer `[1, 0, 2, 0, 2, 0]`
(reference samples 1, 2, 2) the code yields 1, while the nearest integer to
the exact mean 5/3 is 2. -/
theorem average_ref_truncates :
    average_ref [1, 0, 2, 0, 2, 0] = 1 ∧
    round ((accumulator_reference [1, 0, 2, 0, 2, 0] : ℚ) /
      ((rounded_size (List.length [1, 0, 2, 0, 2, 0]) / 2 : ℕ) : ℚ)) = 2 := by
  constructor
  · decide
  · have h1 : accumulator_reference [1, 0, 2, 0, 2, 0] = 5 := by decide
    have h2 : rounded_size (List.length [1, 0, 2, 0, 2, 0]) / 2 = 3 := by decide
    rw [h1, h2]
    norm_num [round_eq]

/-- Claim C7: for every pair of open-circuit and DUT sample sets,
calculate_result returns exactly the spec's bridge formula
`R_internal * R_bridge * (V_dut - V_short) / (R_internal + R_bridge *
(V_open - V_dut))` with `V_short` the zero complex value, the voltages
derived by antipodal differencing (inphase = s1 - s3, quadrature = s0 - s2)
and R_internal = 9500, R_bridge = 100000. -/
theorem calculate_result_matches_spec_formula (o d : Fin 4 → ℤ) :
    calculate_result o d =
      estimate_spec (derive_voltage_spec o) (derive_voltage_spec d) 9500 100000 ∧
    get_voltage o = derive_voltage_spec o := by
  constructor
  · rfl
  · rfl

/-- Claim C8 (code bug exhibit): init_adc returns `false` exactly when the
capture-buffer allocation fails, and main then aborts startup with exit code
1; but on allocation success the non-void function ends without any return
statement, so no defined success value is reported (C undefined behavior) —
the claim's "reports success" conjunct fails on the code. -/
theorem init_adc_success_value_undefined :
    init_adc true = none ∧ init_adc false = some false ∧
    main_startup_exit false = some 1 :=
  ⟨rfl, rfl, rfl⟩

/-- Claim C9 counterexample: at excitation frequency 131836 Hz the computed
clock divider resolves to zero, yet init_pwm signals no ConfigError — the
void C function has no error path and proceeds regardless. -/
theorem init_pwm_no_error_on_zero_divider :
    computed_divider 131836 = 0 ∧ pwmOk (init_pwm 131836) = true := by
  constructor
  · norm_num [computed_divider, CLOCK_FREQ_HZ]
  · rfl

/-- Claim C9 amended: init_pwm performs no validation and never reports an
error — for every excitation frequency it unconditionally computes the
divider and wrap and starts the PWM (even when the divider resolves to
zero); at the compiled PWM_FREQ = 500 the computed divider 263/16 is nonzero
and the computed wrap 8639737/263 (about 32850.7) is representable in the
timer's 16-bit width, so no error condition arises there. -/
theorem init_pwm_never_fails :
    (∀ pwm_freq : ℕ, pwmOk (init_pwm pwm_freq) = true ∧
      init_pwm pwm_freq = Except.ok
        { clock_divider := computed_divider pwm_freq
          counter_wrap := counter_wrap_u16 pwm_freq
          level := computed_level pwm_freq
          enabled := true }) ∧
    computed_divider PWM_FREQ = 263 / 16 ∧
    computed_wrap PWM_FREQ = 8639737 / 263 ∧ computed_wrap PWM_FREQ < 65536 := by
    refine ⟨fun pwm_freq => ⟨rfl, rfl⟩, ?_, ?_, ?_⟩
    · norm_num [computed_divider, CLOCK_FREQ_HZ, PWM_FREQ]
    · norm_num [computed_wrap, computed_divider, CLOCK_FREQ_HZ, PWM_FREQ]
    · norm_num [computed_wrap, computed_divider, CLOCK_FREQ_HZ, PWM_FREQ]

/-- Claim C10: whenever the rounded size is at least 2 (true of the actual
capacity 2813), every capture-buffer index read by get_input_samples — the
pairwise averaging loop, the zero-crossing scan including the initial read of
the last reference sample, and the four phase-walk reads — lies in
`[0, rounded_size)`, and `rounded_size <= capacity`, so no access goes past
the allocated buffer even though the allocated capacity is odd. -/
theorem buffer_reads_in_bounds (buf : List ℕ) (h2 : 2 ≤ rounded_size buf.length) :
    (∀ idx ∈ bufferReads buf, idx < rounded_size buf.length) ∧
    rounded_size buf.length ≤ buf.length := by
  refine ⟨?_, rounded_size_le _⟩
  intro idx hidx
  have heven := rounded_size_even buf.length
  unfold bufferReads at hidx
  rcases List.mem_append.mp hidx with hAB | hC
  · rcases List.mem_append.mp hAB with hA | hB
    · unfold averagingReads at hA
      rcases List.mem_flatMap.mp hA with ⟨i, hi, hmem⟩
      rcases mem_refIndices.mp hi with ⟨h2i, hlt⟩
      rcases List.mem_cons.mp hmem with rfl | hmem'
      · omega
      · rcases List.mem_cons.mp hmem' with rfl | hnil
        · omega
        · cases hnil
    · unfold scanReads at hB
      rcases List.mem_cons.mp hB with rfl | href
      · omega
      · exact (mem_refIndices.mp href).2
  · unfold demodReads at hC
    cases hz : findZeroCrossing buf with
    | none =>
      rw [hz] at hC
      cases hC
    | some z =>
      rw [hz] at hC
      rcases List.mem_map.mp hC with ⟨j, _, rfl⟩
      rcases findZeroCrossing_mem hz with ⟨hz2, hzlt⟩
      have hm : (0 : ℚ) < ((rounded_size buf.length : ℕ) : ℚ) := by
        exact_mod_cast (by omega : 0 < rounded_size buf.length)
      have h0 : (0 : ℚ) ≤ ((z + 1 : ℕ) : ℚ) := by positivity
      have h1 : ((z + 1 : ℕ) : ℚ) < ((rounded_size buf.length : ℕ) : ℚ) := by
        exact_mod_cast (by omega : z + 1 < rounded_size buf.length)
      have hb := walkPos_bounds sample_index_spacing hm h0 h1 j
      exact (nearest_odd_sample_odd_lt hb.1 hb.2 heven).2

/-- Claim C10 witness: on the length-4 buffer `[5, 0, 0, 0]` the rounded size
is within the allocated capacity. -/
theorem buffer_reads_in_bounds_witness :
    rounded_size (List.length ([5, 0, 0, 0] : List ℕ)) ≤
      List.length ([5, 0, 0, 0] : List ℕ) :=
  (buffer_reads_in_bounds [5, 0, 0, 0] (by decide)).2

end LockinPico
